import Mathlib

/-!
# Verification of the RaphiMuehlbacher/blockchain node

Shallow embedding of the Python sources (`transaction.py`, `blockchain.py`,
`block.py`, `node.py`) in Lean 4, together with theorems settling the frozen
claims about the natural-language specification.

Modelling conventions:
* Python `float` amounts and timestamps are embedded as exact rationals (ℚ).
  The rational stands for the exact real value of the IEEE-754 double.  All
  `Decimal` arithmetic performed by the code (`Decimal(x).quantize(...)`) is
  embedded exactly.
* Python `Optional[str]` is `Option String`; Python string falsiness
  (`not self.sender`) is `none` or the empty string.
* The SQLite `account` table is an association list `String × Account`
  (key `public_key` is a primary key, hence unique in any reachable state;
  lookups read the first matching row, updates rewrite it).
* SHA-256 and the float `repr` used by `json.dumps` are parameters (an `Env`
  record); the ecdsa library is a parameter (an `EcdsaLib` record) whose
  error codes follow the documented python-ecdsa exception taxonomy.
* Uncaught Python exceptions are `Except String` / `Except PyExc` errors.
-/

/-! ## Decimal arithmetic (`decimal.Decimal` with 7-digit quantization)

`Decimal.quantize(Decimal("0.0000001"))` rounds to 7 decimal digits with the
default rounding mode ROUND_HALF_EVEN.  `int(d)` truncates toward zero. -/

/-- Floor of a rational as an integer (`Int.fdiv` of numerator by denominator;
the denominator of a `Rat` is positive, so this is the mathematical floor). -/
def qfloor (q : ℚ) : ℤ := Int.fdiv q.num q.den

/-- Round a rational to the nearest integer, ties to even
(Python `decimal` default rounding ROUND_HALF_EVEN). -/
def roundHalfEven (q : ℚ) : ℤ :=
  let f := qfloor q
  let r := q - (f : ℚ)
  if r < 1/2 then f
  else if 1/2 < r then f + 1
  else if Even f then f else f + 1

/-- `Decimal(q).quantize(Decimal("0.0000001"))`: round to 7 decimal digits,
half to even. -/
def quantize7 (q : ℚ) : ℚ := (roundHalfEven (q * 10^7) : ℚ) / 10^7

/-- Python `int(d)` on a `Decimal`: truncation toward zero. -/
def pyInt (q : ℚ) : ℤ := if 0 ≤ q then qfloor q else - qfloor (-q)

/-! ## Account ledger (`AccountManager` over the SQLite `account` table)

Table schema: `account(public_key TEXT PRIMARY KEY, nonce INTEGER DEFAULT 0,
balance INTEGER DEFAULT 0)`.  Balances are stored in integer micro-units. -/

/-- One row of the `account` table. -/
structure Account where
  nonce : ℤ
  balanceMicro : ℤ
deriving DecidableEq, Repr

/-- The `account` table: association list keyed by `public_key`.
The primary-key constraint makes keys unique in any state the code builds. -/
abbrev Ledger := List (String × Account)

/-- Look up the row for a public key (first match). -/
def ledgerFind : Ledger → String → Option Account
  | [], _ => none
  | (k, a) :: rest, pk => if k = pk then some a else ledgerFind rest pk

/-- `AccountManager.get_balance`: `SELECT balance ... WHERE public_key=?`,
then `(Decimal(micro) / Decimal(1e6)).quantize(Decimal("0.0000001"))`.
A `None` argument (SQL `NULL`) matches no row. -/
def get_balance (l : Ledger) (pk : Option String) : Option ℚ :=
  match pk with
  | none => none
  | some k =>
    match ledgerFind l k with
    | none => none
    | some a => some (quantize7 ((a.balanceMicro : ℚ) / 10^6))

/-- `AccountManager.get_nonce`. -/
def get_nonce (l : Ledger) (pk : Option String) : Option ℤ :=
  match pk with
  | none => none
  | some k =>
    match ledgerFind l k with
    | none => none
    | some a => some a.nonce

/-- Replace the first row keyed `pk` with balance `m`; otherwise append a new
row with the column default `nonce = 0` (SQL `INSERT ... ON CONFLICT(public_key)
DO UPDATE SET balance = excluded.balance`). -/
def ledgerStore : Ledger → String → ℤ → Ledger
  | [], pk, m => [(pk, { nonce := 0, balanceMicro := m })]
  | (k, a) :: rest, pk, m =>
    if k = pk then (k, { a with balanceMicro := m }) :: rest
    else (k, a) :: ledgerStore rest pk m

/-- `AccountManager.upsert_balance`: stores
`int((Decimal(balance) * Decimal(1e6)).quantize(Decimal("0.0000001")))`
micro-units (`int` truncates toward zero). -/
def upsert_balance (l : Ledger) (pk : String) (balance : ℚ) : Ledger :=
  ledgerStore l pk (pyInt (quantize7 (balance * 10^6)))

/-- Add one to the nonce of the first row keyed `pk`, if any. -/
def incrementGo : Ledger → String → Ledger
  | [], _ => []
  | (k, a) :: rest, pk =>
    if k = pk then (k, { a with nonce := a.nonce + 1 }) :: rest
    else (k, a) :: incrementGo rest pk

/-- `AccountManager.increment_nonce`: `UPDATE account SET nonce = nonce + 1
WHERE public_key=?`.  No row matched (including a `NULL` key) means no change. -/
def increment_nonce (l : Ledger) (pk : Option String) : Ledger :=
  match pk with
  | none => l
  | some k => incrementGo l k

/-! ## Transactions (`transaction.py`)

The record carries a `nonce` field because `blockchain.py` reads
`transaction.nonce` throughout (`tx_in_mempool`, `add_transaction`,
`apply_transactions`).  `Transaction.__init__` in `transaction.py` never
assigns this attribute — that discrepancy is settled under claim C1 — and
neither `calculate_hash` nor `is_valid` reads it. -/

/-- A transaction object as the code base manipulates it. -/
structure Tx where
  is_coinbase : Bool
  sender : Option String
  receiver : String
  amount : ℚ
  nonce : ℤ
  signature : Option String
  tx_hash : String
deriving DecidableEq, Repr

/-- External primitives used for hashing: SHA-256 as hex, and the Python
`repr` of a float used by `json.dumps` for numeric values. -/
structure Env where
  sha256hex : String → String
  reprFloat : ℚ → String

/-- JSON string escaping for the characters appearing in key and address
strings (backslash and double quote; the sources never hash strings holding
control characters, whose `\uXXXX` escaping is not modelled). -/
def jsonEscape (s : String) : String :=
  String.join (s.data.map fun c =>
    if c = '\\' then "\\\\" else if c = '"' then "\\\"" else String.singleton c)

/-- A JSON string literal. -/
def jsonStr (s : String) : String := "\"" ++ jsonEscape s ++ "\""

/-- JSON value for an `Optional[str]` field. -/
def jsonOptStr : Option String → String
  | none => "null"
  | some s => jsonStr s

/-- JSON value for a bool. -/
def jsonBool (b : Bool) : String := if b then "true" else "false"

/-- `Transaction.calculate_hash` pre-image:
`json.dumps({"is_coinbase": .., "sender": .., "receiver": .., "amount": ..},
sort_keys=True)` — keys serialized in lexicographic order
(amount, is_coinbase, receiver, sender) with `", "` and `": "` separators.
Note: the `nonce` field is not part of the pre-image. -/
def txPreimage (env : Env) (t : Tx) : String :=
  "\x7b\"amount\": " ++ env.reprFloat t.amount ++
  ", \"is_coinbase\": " ++ jsonBool t.is_coinbase ++
  ", \"receiver\": " ++ jsonStr t.receiver ++
  ", \"sender\": " ++ jsonOptStr t.sender ++ "\x7d"

/-- `Transaction.calculate_hash`. -/
def calculate_hash (env : Env) (t : Tx) : String :=
  env.sha256hex (txPreimage env t)

/-- `Transaction.__init__(receiver, amount, sender=None, is_coinbase=False,
signature=None, tx_hash=None)`.  Sets `sender = "COINBASE"` whenever
`is_coinbase` is true, ignoring the `sender` argument; computes the hash only
when no `tx_hash` is supplied.  The Lean record needs a value for the `nonce`
field the Python constructor never assigns; it is set to 0 and no modelled
operation of `transaction.py` reads it. -/
def mkTransaction (env : Env) (receiver : String) (amount : ℚ)
    (sender : Option String) (is_coinbase : Bool)
    (signature : Option String) (tx_hash : Option String) : Tx :=
  let t0 : Tx :=
    { is_coinbase := is_coinbase
      receiver := receiver
      amount := amount
      signature := signature
      sender := if is_coinbase then some "COINBASE" else sender
      nonce := 0
      tx_hash := "" }
  { t0 with tx_hash := match tx_hash with
      | some h => h
      | none => calculate_hash env t0 }

/-! ## The ecdsa library boundary (`ecdsa` package, used by `Transaction.is_valid`)

`Transaction.is_valid` runs, inside `try`:
`bytes.fromhex(sender)` → `VerifyingKey.from_string(..., curve=SECP256k1)` →
`bytes.fromhex(signature)` → `public_key.verify(sig_bytes, tx_hash_bytes)`,
and catches only `(BadSignatureError, ValueError)`.

Exception taxonomy of the library (python-ecdsa):
`BadSignatureError` subclasses `Exception`; `bytes.fromhex` raises
`ValueError`; `VerifyingKey.from_string` raises `MalformedPointError`
for a byte string that is not a valid point encoding — and
`MalformedPointError` subclasses `AssertionError`, NOT `ValueError`, so the
`except` clause above does not catch it. -/

/-- Python exceptions that the crypto pipeline of `is_valid` can raise. -/
inductive PyExc where
  | valueError
  | badSignatureError
  | malformedPointError
deriving DecidableEq, Repr

/-- Value of a hexadecimal digit. -/
def hexDigitVal (c : Char) : Option Nat :=
  if '0' ≤ c ∧ c ≤ '9' then some (c.toNat - '0'.toNat)
  else if 'a' ≤ c ∧ c ≤ 'f' then some (c.toNat - 'a'.toNat + 10)
  else if 'A' ≤ c ∧ c ≤ 'F' then some (c.toNat - 'A'.toNat + 10)
  else none

/-- Decode a list of hex digit characters, two per byte. -/
def hexPairs : List Char → Option (List Nat)
  | [] => some []
  | [_] => none
  | c1 :: c2 :: rest =>
    match hexDigitVal c1, hexDigitVal c2, hexPairs rest with
    | some h, some lo, some bs => some ((h * 16 + lo) :: bs)
    | _, _, _ => none

/-- `bytes.fromhex`: `none` models the `ValueError` raised on a non-hex or
odd-length string.  (CPython also skips ASCII spaces between byte pairs; the
sources never produce such strings and the relaxation is not modelled.) -/
def bytesFromHex (s : String) : Option (List Nat) := hexPairs s.data

/-- The ecdsa library as used by `is_valid`.
`from_string bs` returns a verifying key (represented by its bytes) or raises;
`verify pk sig msg` returns normally on a valid signature or raises. -/
structure EcdsaLib where
  from_string : List Nat → Except PyExc Unit
  verify : List Nat → List Nat → List Nat → Except PyExc Unit

/-- UTF-8 bytes of a string (`str.encode()`); all strings the sources hash or
sign are ASCII, for which code points and bytes coincide. -/
def strBytes (s : String) : List Nat := s.data.map Char.toNat

/-- Python string falsiness of an `Optional[str]` (`not self.sender`). -/
def pyFalsy : Option String → Bool
  | none => true
  | some s => s = ""

/-- The body of the `try` block in `Transaction.is_valid`:
decode the sender hex, build the verifying key, decode the signature hex,
verify over the stored `tx_hash` bytes, and return `True`. -/
def isValidTryBody (lib : EcdsaLib) (t : Tx) : Except PyExc Bool := do
  let senderStr := match t.sender with | none => "" | some s => s
  let sigStr := match t.signature with | none => "" | some s => s
  match bytesFromHex senderStr with
  | none => throw .valueError
  | some pkBytes =>
    match lib.from_string pkBytes with
    | .error e => throw e
    | .ok _ =>
      match bytesFromHex sigStr with
      | none => throw .valueError
      | some sigBytes =>
        match lib.verify pkBytes sigBytes (strBytes t.tx_hash) with
        | .error e => throw e
        | .ok _ => return true

/-- `Transaction.is_valid`.  Coinbase: `amount == 10.0`.  Otherwise requires a
truthy `sender` and `signature`, then runs the crypto pipeline inside
`try ... except (BadSignatureError, ValueError): return False`; any other
exception (notably `MalformedPointError`) propagates to the caller.
The stored `tx_hash` is never recomputed or compared. -/
def tx_is_valid (lib : EcdsaLib) (t : Tx) : Except PyExc Bool :=
  if t.is_coinbase then .ok (t.amount = 10)
  else if pyFalsy t.sender || pyFalsy t.signature then .ok false
  else
    match isValidTryBody lib t with
    | .ok b => .ok b
    | .error .badSignatureError => .ok false
    | .error .valueError => .ok false
    | .error e => .error e

/-! ## Mempool admission (`Blockchain.add_transaction`)

The chain object state relevant to admission: the account ledger and the
pending-transactions list.  `Transaction.is_valid` involves the crypto
pipeline; admission is parameterized by the boolean it returns (runs in which
`is_valid` raises are outside `add_transaction`'s boolean protocol). -/

/-- Mempool-facing state of a `Blockchain` object. -/
structure ChainState where
  ledger : Ledger
  pending : List Tx
deriving DecidableEq, Repr

/-- `Blockchain.get_all_spendings_from_transactions`: sum of `amount` over the
transactions of `sender` in `transactions`. -/
def get_all_spendings_from_transactions (sender : Option String) (transactions : List Tx) : ℚ :=
  ((transactions.filter fun t => t.sender = sender).map Tx.amount).sum

/-- `Blockchain.add_transaction`.  Checks, in order: `transaction.is_valid()`
(here the boolean `txValid transaction`), the sender balance against the
pending spend plus this amount, and the transaction nonce against the ledger
nonce; on success increments the sender ledger nonce and appends to the
pending list. -/
def add_transaction (txValid : Tx → Bool) (st : ChainState) (t : Tx) : Bool × ChainState :=
  if ¬ txValid t then (false, st)
  else
    let all_senders_spending := get_all_spendings_from_transactions t.sender st.pending + t.amount
    match get_balance st.ledger t.sender with
    | none => (false, st)
    | some sender_balance =>
      if sender_balance < all_senders_spending then (false, st)
      else
        match get_nonce st.ledger t.sender with
        | none => (false, st)
        | some sender_nonce =>
          if t.nonce ≠ sender_nonce then (false, st)
          else
            (true, { ledger := increment_nonce st.ledger t.sender
                     pending := st.pending ++ [t] })

/-! ## Block application (`Blockchain.apply_transactions`)

The Python loop mutates the SQLite ledger in place and `return False` aborts
mid-way, leaving prior writes committed; the embedding threads the ledger and
returns it with the boolean.  Uncaught exceptions (`TypeError` from
`None`-arithmetic, `IndexError` from `coinbase_transactions[0]`) are
`Except.error` outcomes. -/

/-- Append `t` to the group of key `s`, or open a new group at the end
(Python dict insertion order). -/
def addToGroup : List (Option String × List Tx) → Option String → Tx → List (Option String × List Tx)
  | [], s, t => [(s, [t])]
  | (k, ts) :: rest, s, t =>
    if k = s then (k, ts ++ [t]) :: rest
    else (k, ts) :: addToGroup rest s t

/-- The first loop of `apply_transactions`: split into `transactions_by_sender`
(a dict in insertion order) and the `coinbase_transactions` list. -/
def partitionTxs : List Tx → List (Option String × List Tx) → List Tx → List (Option String × List Tx) × List Tx
  | [], gs, cbs => (gs, cbs)
  | t :: rest, gs, cbs =>
    if t.sender = some "COINBASE" then partitionTxs rest gs (cbs ++ [t])
    else partitionTxs rest (addToGroup gs t.sender t) cbs

/-- `sender_transactions.sort(key=lambda tx: tx.nonce)`: stable ascending sort
by nonce. -/
def sortByNonce (txs : List Tx) : List Tx :=
  List.insertionSort (fun a b => a.nonce ≤ b.nonce) txs

/-- The nonce-sequencing loop: every transaction's nonce must equal the
running expected nonce, incremented by one per transaction. -/
def noncesConsecutive : ℤ → List Tx → Bool
  | _, [] => true
  | expected, t :: rest => t.nonce = expected && noncesConsecutive (expected + 1) rest

/-- The write loop of `apply_transactions` for one sender group (runs after
the group's checks passed): debit the sender, bump the sender nonce, credit
the receiver, per transaction in order.  `get_balance` is read on the group
key `sender`; the writes use the transaction's own `sender` field, which for
groups built by the partition loop is the same key (`groupKeyMem`); a `None`
transaction sender in a group whose key produced a balance cannot occur
there, and that branch (a SQLite `NULL` primary-key insert) is left as an
error outcome. -/
def applyGroupWrites (sender : Option String) : List Tx → Ledger → Except String Ledger
  | [], l => .ok l
  | t :: rest, l =>
    match get_balance l sender with
    | none => .error "TypeError"
    | some current_balance =>
      match t.sender with
      | none => .error "ModelGap-NULL-key"
      | some skey =>
        let transaction_amount := quantize7 t.amount
        let new_balance := quantize7 (current_balance - transaction_amount)
        let l1 := upsert_balance l skey new_balance
        let l2 := increment_nonce l1 (some skey)
        let receiver_balance := (get_balance l2 (some t.receiver)).getD 0
        let new_receiver_balance := quantize7 (receiver_balance + transaction_amount)
        let l3 := upsert_balance l2 t.receiver new_receiver_balance
        applyGroupWrites sender rest l3

/-- One iteration of the per-sender loop of `apply_transactions`:
sort the group, derive the expected start nonce
(`get_nonce(sender) - len(group)`; a missing row makes the subtraction a
`TypeError`), read the balance (`float(None)` likewise raises), run the
nonce check and the total-spent check, then commit the writes. -/
def processGroup (l : Ledger) (sender : Option String) (txs : List Tx) : Except String (Bool × Ledger) :=
  let sorted := sortByNonce txs
  match get_nonce l sender with
  | none => .error "TypeError"
  | some n =>
    let current_nonce := n - sorted.length
    match get_balance l sender with
    | none => .error "TypeError"
    | some sender_balance =>
      if ¬ noncesConsecutive current_nonce sorted then .ok (false, l)
      else
        let total_spent := (sorted.map Tx.amount).sum
        if sender_balance < total_spent then .ok (false, l)
        else
          match applyGroupWrites sender sorted l with
          | .error e => .error e
          | .ok l2 => .ok (true, l2)

/-- The per-sender loop over all groups; a `False` outcome aborts the
remaining groups but keeps the writes already committed. -/
def processGroups : List (Option String × List Tx) → Ledger → Except String (Bool × Ledger)
  | [], l => .ok (true, l)
  | (s, txs) :: rest, l =>
    match processGroup l s txs with
    | .error e => .error e
    | .ok (false, l2) => .ok (false, l2)
    | .ok (true, l2) => processGroups rest l2

/-- The coinbase tail of `apply_transactions`: when the coinbase count is not
1 only a warning is logged; `coinbase_transactions[0]` then raises
`IndexError` on an empty list, and otherwise the first coinbase receiver is
credited `Decimal(10.0)` and the function returns `True`. -/
def applyCoinbase (l : Ledger) : List Tx → Except String (Bool × Ledger)
  | [] => .error "IndexError"
  | cb :: _ =>
    let receiver_balance := (get_balance l (some cb.receiver)).getD 0
    let new_receiver_balance := quantize7 (receiver_balance + quantize7 10)
    .ok (true, upsert_balance l cb.receiver new_receiver_balance)

/-- `Blockchain.apply_transactions`. -/
def apply_transactions (l : Ledger) (transactions : List Tx) : Except String (Bool × Ledger) :=
  let (groups, cbs) := partitionTxs transactions [] []
  match processGroups groups l with
  | .error e => .error e
  | .ok (false, l2) => .ok (false, l2)
  | .ok (true, l2) => applyCoinbase l2 cbs

/-! ## Peer registry (`PeerManager` in `node.py`, SQLite `node` table)

Rows `(ip, port, is_offline)`, unique on `(ip, port)`. -/

/-- One row of the `node` table. -/
structure PeerRow where
  ip : String
  port : ℤ
  is_offline : Bool
deriving DecidableEq, Repr

/-- `(ip, port)` membership (the UNIQUE constraint used by
`INSERT OR IGNORE`). -/
def peerMem (reg : List PeerRow) (addr : String × ℤ) : Bool :=
  reg.any fun r => r.ip = addr.1 && r.port = addr.2

/-- `INSERT OR IGNORE INTO node (ip, port) VALUES (?, ?)`: appends a row with
`is_offline` defaulting to false unless `(ip, port)` is already present. -/
def insertOrIgnore (reg : List PeerRow) (addr : String × ℤ) : List PeerRow :=
  if peerMem reg addr then reg
  else reg ++ [{ ip := addr.1, port := addr.2, is_offline := false }]

/-- `PeerManager.add_peer(peer_addr, max_peers)`: with a non-`None` bound the
insert is skipped only when `get_rows() > max_peers` (strictly more rows than
the bound). -/
def add_peer (reg : List PeerRow) (addr : String × ℤ) (max_peers : Option ℤ) : List PeerRow :=
  match max_peers with
  | some m => if (reg.length : ℤ) > m then reg else insertOrIgnore reg addr
  | none => insertOrIgnore reg addr

/-! ## Blocks (`block.py`) -/

/-- A block object.  `index` and the mining counter `nonce` are Python ints,
`timestamp` a float. -/
structure Block where
  index : ℤ
  previous_hash : String
  transactions : List Tx
  nonce : ℤ
  timestamp : ℚ
  hash : String

/-- `Block.calculate_hash` pre-image: `json.dumps({...}, sort_keys=True)` over
index, nonce, previous_hash, timestamp, transactions (the keys in
lexicographic order), where `transactions` is the list of `tx_hash` strings. -/
def blockPreimage (env : Env) (b : Block) : String :=
  "\x7b\"index\": " ++ toString b.index ++
  ", \"nonce\": " ++ toString b.nonce ++
  ", \"previous_hash\": " ++ jsonStr b.previous_hash ++
  ", \"timestamp\": " ++ env.reprFloat b.timestamp ++
  ", \"transactions\": [" ++
    String.intercalate ", " (b.transactions.map fun t => jsonStr t.tx_hash) ++
  "]\x7d"

/-- `Block.calculate_hash`. -/
def block_calculate_hash (env : Env) (b : Block) : String :=
  env.sha256hex (blockPreimage env b)

/-- The transaction loop of `Block.is_valid`: `False` as soon as one
transaction is invalid, propagating any exception `is_valid` raises. -/
def allTxValid (lib : EcdsaLib) : List Tx → Except PyExc Bool
  | [] => .ok true
  | t :: rest =>
    match tx_is_valid lib t with
    | .error e => .error e
    | .ok false => .ok false
    | .ok true => allTxValid lib rest

/-- `Block.is_valid(difficulty, previous_block)`: previous-hash link,
difficulty prefix (`hash.startswith("0" * difficulty)`), hash recomputation,
and validity of every contained transaction. -/
def block_is_valid (env : Env) (lib : EcdsaLib) (difficulty : ℕ) (b previous_block : Block) :
    Except PyExc Bool :=
  if ¬ (b.previous_hash = previous_block.hash) then .ok false
  else if ¬ (b.hash.startsWith (String.mk (List.replicate difficulty '0'))) then .ok false
  else if ¬ (b.hash = block_calculate_hash env b) then .ok false
  else allTxValid lib b.transactions

/-- The loop of `Blockchain.is_valid` from index 1, carrying the previous
block: link check then `Block.is_valid`, stopping at the first failure. -/
def chainValidFrom (env : Env) (lib : EcdsaLib) (difficulty : ℕ) :
    Block → List Block → Except PyExc Bool
  | _, [] => .ok true
  | prev, b :: rest =>
    if ¬ (b.previous_hash = prev.hash) then .ok false
    else
      match block_is_valid env lib difficulty b prev with
      | .error e => .error e
      | .ok false => .ok false
      | .ok true => chainValidFrom env lib difficulty b rest

/-- `Blockchain.is_valid`: `for i in range(1, len(chain))`, checking the
previous-hash link and `Block.is_valid` at each index.  The genesis block at
index 0 is never itself validated, and no transaction is applied. -/
def blockchain_is_valid (env : Env) (lib : EcdsaLib) (difficulty : ℕ) (chain : List Block) :
    Except PyExc Bool :=
  match chain with
  | [] => .ok true
  | g :: rest => chainValidFrom env lib difficulty g rest

/-! ## Derived quantities and concrete instances used by the theorems -/

/-- Stored balance (micro-units) of the first row keyed `k`, if any. -/
def ledgerBal (l : Ledger) (k : String) : Option ℤ :=
  (ledgerFind l k).map (fun a => a.balanceMicro)

/-- Sum of all stored balances, in micro-units. -/
def ledgerMicroSum (l : Ledger) : ℤ :=
  (l.map fun p => p.2.balanceMicro).sum

/-- Sum of all account balances in coin units (each row's `get_balance` value
is its micro balance divided by 1e6). -/
def ledgerCoinSum (l : Ledger) : ℚ := (ledgerMicroSum l : ℚ) / 10^6

/-- All stored balances are non-negative. -/
def LedgerNonneg (l : Ledger) : Prop := ∀ p ∈ l, 0 ≤ p.2.balanceMicro

instance (l : Ledger) : Decidable (LedgerNonneg l) :=
  inferInstanceAs (Decidable (∀ p ∈ l, 0 ≤ p.2.balanceMicro))

/-- An amount is exactly representable in the ledger's smallest stored unit
(the spec's transaction-amount domain: decimals with at most 6 fractional
digits). -/
def MicroAmount (q : ℚ) : Prop := ∃ k : ℤ, q = (k : ℚ) / 10^6

/-- The predecessor of element `j` of `rest` in a chain whose block before
`rest` is `prev`. -/
def chainPrevAt (prev : Block) (rest : List Block) : ℕ → Block
  | 0 => prev
  | k + 1 => rest.getD k prev

/-- Stand-in for SHA-256 in closed instantiations: prefixing keeps distinct
pre-images distinct and the output visibly different from any stored hash the
instantiations use. -/
def envModel : Env :=
  { sha256hex := fun s => "#" ++ s
    reprFloat := fun _ => "1.0" }

/-- An `EcdsaLib` state for runs in which the sender key parses and the
signature verifies (as happens for a correctly signed transaction). -/
def libAcceptAll : EcdsaLib :=
  { from_string := fun _ => .ok ()
    verify := fun _ _ _ => .ok () }

/-- `VerifyingKey.from_string` as documented by python-ecdsa: a byte string
whose length is none of the raw (64), compressed (33) or uncompressed (65)
encodings of a SECP256k1 point raises `MalformedPointError`.  Point-on-curve
validation of well-length strings is immaterial to every theorem below and
such keys are taken as valid; `verify` rejects (raises `BadSignatureError`). -/
def libLengthCheck : EcdsaLib :=
  { from_string := fun bs =>
      if bs.length = 64 ∨ bs.length = 33 ∨ bs.length = 65 then .ok ()
      else .error .malformedPointError
    verify := fun _ _ _ => .error .badSignatureError }

/-- A non-coinbase transaction whose `nonce` attribute is `n`, all other
fields fixed. -/
def txWithNonce (n : ℤ) : Tx :=
  { is_coinbase := false, sender := some "aa", receiver := "bb", amount := 1
    nonce := n, signature := none, tx_hash := "h" }

/-- A 64-byte (128 hex characters) sender key, the length of a raw SECP256k1
public key. -/
def hexKey64 : String := String.mk (List.replicate 128 'a')

/-- A transaction whose stored `tx_hash` differs from its recomputed
canonical hash. -/
def txSpoof : Tx :=
  { is_coinbase := false, sender := some hexKey64, receiver := "bb", amount := 1
    nonce := 0, signature := some "bb", tx_hash := "deadbeef" }

/-- A transaction whose sender is valid hex but not a valid point encoding
(1 byte instead of 64). -/
def txMalformed : Tx :=
  { is_coinbase := false, sender := some "aa", receiver := "bb", amount := 1
    nonce := 0, signature := some "bb", tx_hash := "h" }

/-- A coinbase transaction paying `r`. -/
def cbTo (r : String) : Tx :=
  { is_coinbase := true, sender := some "COINBASE", receiver := r, amount := 10
    nonce := 0, signature := none, tx_hash := "hc" }

/-- Ledger for the C3 run: senders A and B, both nonce 1 (one admission
each), 5 coins each; miner M. -/
def ledgerC3 : Ledger :=
  [("A", { nonce := 1, balanceMicro := 5000000 }),
   ("B", { nonce := 1, balanceMicro := 5000000 }),
   ("M", { nonce := 0, balanceMicro := 0 })]

/-- A's transaction: 1 coin to R, nonce 0 (matches). -/
def txA : Tx :=
  { is_coinbase := false, sender := some "A", receiver := "R", amount := 1
    nonce := 0, signature := some "sa", tx_hash := "ha" }

/-- B's transaction: 1 coin to R, nonce 5 (mismatch — expected 0). -/
def txB : Tx :=
  { is_coinbase := false, sender := some "B", receiver := "R", amount := 1
    nonce := 5, signature := some "sb", tx_hash := "hb" }

/-- The C3 block body: coinbase, then A's valid transfer, then B's
nonce-mismatched transfer. -/
def txsC3 : List Tx := [cbTo "M", txA, txB]

/-- The ledger `apply_transactions` leaves behind when it returns `False` on
`txsC3`: A already debited 1 coin and its nonce bumped, R already credited. -/
def ledgerC3after : Ledger :=
  [("A", { nonce := 2, balanceMicro := 4000000 }),
   ("B", { nonce := 1, balanceMicro := 5000000 }),
   ("M", { nonce := 0, balanceMicro := 0 }),
   ("R", { nonce := 0, balanceMicro := 1000000 })]

/-- Ledger for the C4 run. -/
def ledgerC4 : Ledger := [("M1", { nonce := 0, balanceMicro := 0 })]

/-- A second coinbase in the same block, paying a different miner. -/
def cbTo2 (r : String) : Tx :=
  { is_coinbase := true, sender := some "COINBASE", receiver := r, amount := 10
    nonce := 0, signature := none, tx_hash := "hc2" }

/-- Ledger for the C6 runs: sender A with 10 coins, nonce 1. -/
def ledgerC6 : Ledger := [("A", { nonce := 1, balanceMicro := 10000000 })]

/-- A sub-micro transfer: 1e-7 coins from A to R. -/
def txTiny : Tx :=
  { is_coinbase := false, sender := some "A", receiver := "R", amount := 1/10^7
    nonce := 0, signature := some "sa", tx_hash := "ht" }

/-- A negative transfer: -5 coins from A to R. -/
def txNeg : Tx :=
  { is_coinbase := false, sender := some "A", receiver := "R", amount := -5
    nonce := 0, signature := some "sa", tx_hash := "hn" }

/-- A two-row peer registry. -/
def regTwo : List PeerRow :=
  [{ ip := "a", port := 1, is_offline := false },
   { ip := "b", port := 2, is_offline := false }]

/-- Ledger for the C5 witness: alice with 5 coins, nonce 0. -/
def ledgerAlice : Ledger := [("alice", { nonce := 0, balanceMicro := 5000000 })]

/-- Chain state for the C5 witness. -/
def stAlice : ChainState := { ledger := ledgerAlice, pending := [] }

/-- A transaction alice can afford, nonce 0. -/
def txAlice : Tx :=
  { is_coinbase := false, sender := some "alice", receiver := "bob", amount := 1
    nonce := 0, signature := some "s", tx_hash := "h" }

/-- A one-block chain for the C7 witness. -/
def blockG : Block :=
  { index := 0, previous_hash := "0", transactions := [], nonce := 0
    timestamp := 0, hash := "00000000000000000000000000000000" }

/-! ## Arithmetic lemmas for the decimal model -/

theorem qfloor_intCast (k : ℤ) : qfloor (k : ℚ) = k := by
  unfold qfloor
  rw [Rat.num_intCast, Rat.den_intCast, Nat.cast_one, Int.fdiv_one]

theorem roundHalfEven_intCast (k : ℤ) : roundHalfEven (k : ℚ) = k := by
  unfold roundHalfEven
  rw [qfloor_intCast]
  norm_num

theorem pyInt_intCast (k : ℤ) : pyInt (k : ℚ) = k := by
  unfold pyInt
  by_cases h : (0:ℚ) ≤ (k:ℚ)
  · simp only [h, if_true, qfloor_intCast]
  · have h2 : -(k:ℚ) = ((-k : ℤ) : ℚ) := by push_cast; ring
    simp only [h, if_false, h2, qfloor_intCast, neg_neg]

/-- `quantize7` is the identity on multiples of `10 ^ (-7)`. -/
theorem quantize7_of_mul (k : ℤ) : quantize7 ((k : ℚ) / 10^7) = (k : ℚ) / 10^7 := by
  have h : ((k : ℚ) / 10^7) * 10^7 = (k : ℚ) := by field_simp
  unfold quantize7
  rw [h, roundHalfEven_intCast]

/-- `quantize7` is the identity on multiples of `10 ^ (-6)` (every value the
ledger stores or the spec's amount domain produces). -/
theorem quantize7_micro (k : ℤ) : quantize7 ((k : ℚ) / 10^6) = (k : ℚ) / 10^6 := by
  have h : (k : ℚ) / 10^6 = ((10 * k : ℤ) : ℚ) / 10^7 := by push_cast; ring
  rw [h, quantize7_of_mul]

/-- Storing a micro-multiple balance is exact: `upsert_balance` with
`(k : ℚ)/1e6` stores the integer `k`. -/
theorem upsert_balance_micro (l : Ledger) (pk : String) (k : ℤ) :
    upsert_balance l pk ((k : ℚ) / 10^6) = ledgerStore l pk k := by
  unfold upsert_balance
  have h : (k : ℚ) / 10^6 * 10^6 = (k : ℚ) := by field_simp
  rw [h]
  have h2 : quantize7 (k : ℚ) = ((k : ℚ)) := by
    have h3 : (k : ℚ) * 10^7 = ((k * 10^7 : ℤ) : ℚ) := by push_cast; ring
    unfold quantize7
    rw [h3, roundHalfEven_intCast]
    push_cast
    rw [mul_div_assoc]
    norm_num
  rw [h2, pyInt_intCast]

/-! ## Ledger algebra -/

theorem ledgerFind_mem (l : Ledger) (k : String) (a : Account)
    (h : ledgerFind l k = some a) : (k, a) ∈ l := by
  induction l with
  | nil => simp [ledgerFind] at h
  | cons p rest ih =>
    obtain ⟨k2, a2⟩ := p
    by_cases hk : k2 = k
    · subst hk
      simp [ledgerFind] at h
      subst h
      exact List.mem_cons_self _ _
    · simp [ledgerFind, hk] at h
      exact List.mem_cons_of_mem _ (ih h)

theorem ledgerBal_store_self (l : Ledger) (pk : String) (m : ℤ) :
    ledgerBal (ledgerStore l pk m) pk = some m := by
  induction l with
  | nil => simp [ledgerStore, ledgerBal, ledgerFind]
  | cons p rest ih =>
    obtain ⟨k, a⟩ := p
    by_cases h : k = pk
    · simp [ledgerStore, h, ledgerBal, ledgerFind]
    · simpa [ledgerStore, h, ledgerBal, ledgerFind] using ih

theorem ledgerBal_store_other (l : Ledger) (pk k2 : String) (m : ℤ) (h : pk ≠ k2) :
    ledgerBal (ledgerStore l pk m) k2 = ledgerBal l k2 := by
  induction l with
  | nil => simp [ledgerStore, ledgerBal, ledgerFind, h]
  | cons p rest ih =>
    obtain ⟨k, a⟩ := p
    by_cases hk : k = pk
    · subst hk
      simp [ledgerStore, ledgerBal, ledgerFind, h]
    · by_cases hk2 : k = k2
      · simp [ledgerStore, ledgerBal, ledgerFind, hk, hk2, Ne.symm h]
      · simpa [ledgerStore, ledgerBal, ledgerFind, hk, hk2] using ih

theorem microSum_store (l : Ledger) (pk : String) (m : ℤ) :
    ledgerMicroSum (ledgerStore l pk m) =
      ledgerMicroSum l - (ledgerBal l pk).getD 0 + m := by
  induction l with
  | nil => simp [ledgerStore, ledgerMicroSum, ledgerBal, ledgerFind]
  | cons p rest ih =>
    obtain ⟨k, a⟩ := p
    by_cases h : k = pk
    · simp [ledgerStore, h, ledgerMicroSum, ledgerBal, ledgerFind]
      ring
    · simp [ledgerStore, h, ledgerMicroSum, ledgerBal, ledgerFind] at ih ⊢
      omega

theorem nonneg_store (l : Ledger) (pk : String) (m : ℤ)
    (hl : LedgerNonneg l) (hm : 0 ≤ m) : LedgerNonneg (ledgerStore l pk m) := by
  induction l with
  | nil =>
    intro p hp
    simp [ledgerStore] at hp
    simp [hp, hm]
  | cons q rest ih =>
    obtain ⟨k, a⟩ := q
    have hrest : LedgerNonneg rest := fun p hp => hl p (List.mem_cons_of_mem _ hp)
    by_cases h : k = pk
    · intro p hp
      simp [ledgerStore, h] at hp
      rcases hp with hp | hp
      · simp [hp, hm]
      · exact hrest p hp
    · intro p hp
      simp [ledgerStore, h] at hp
      rcases hp with hp | hp
      · subst hp
        exact hl (k, a) (List.mem_cons_self _ _)
      · exact ih hrest p hp

theorem ledgerBal_incrementGo (l : Ledger) (k k2 : String) :
    ledgerBal (incrementGo l k) k2 = ledgerBal l k2 := by
  induction l with
  | nil => simp [incrementGo]
  | cons p rest ih =>
    obtain ⟨k3, a⟩ := p
    by_cases h : k3 = k
    · subst h
      by_cases h2 : k3 = k2
      · subst h2
        simp [incrementGo, ledgerBal, ledgerFind]
      · simp [incrementGo, ledgerBal, ledgerFind, h2]
    · by_cases h2 : k3 = k2
      · subst h2
        simp [incrementGo, ledgerBal, ledgerFind, h]
      · simpa [incrementGo, ledgerBal, ledgerFind, h, h2] using ih

theorem microSum_incrementGo (l : Ledger) (k : String) :
    ledgerMicroSum (incrementGo l k) = ledgerMicroSum l := by
  induction l with
  | nil => simp [incrementGo]
  | cons p rest ih =>
    obtain ⟨k3, a⟩ := p
    by_cases h : k3 = k <;> simp [incrementGo, ledgerMicroSum, h] at ih ⊢ <;> omega

theorem nonneg_incrementGo (l : Ledger) (k : String) (hl : LedgerNonneg l) :
    LedgerNonneg (incrementGo l k) := by
  induction l with
  | nil => simpa [incrementGo] using hl
  | cons p rest ih =>
    obtain ⟨k3, a⟩ := p
    have hrest : LedgerNonneg rest := fun p hp => hl p (List.mem_cons_of_mem _ hp)
    by_cases h : k3 = k
    · intro p hp
      simp [incrementGo, h] at hp
      rcases hp with hp | hp
      · subst hp
        exact hl (k3, a) (List.mem_cons_self _ _)
      · exact hrest p hp
    · intro p hp
      simp [incrementGo, h] at hp
      rcases hp with hp | hp
      · subst hp
        exact hl (k3, a) (List.mem_cons_self _ _)
      · exact ih hrest p hp

theorem nonneg_bal (l : Ledger) (k : String) (hl : LedgerNonneg l) :
    0 ≤ (ledgerBal l k).getD 0 := by
  unfold ledgerBal
  rcases h : ledgerFind l k with _ | a
  · simp
  · simpa using hl (k, a) (ledgerFind_mem l k a h)

/-- `get_balance` in terms of the stored micro balance. -/
theorem get_balance_eq (l : Ledger) (k : String) :
    get_balance l (some k) = (ledgerBal l k).map (fun m => (m : ℚ) / 10^6) := by
  unfold get_balance ledgerBal
  rcases h : ledgerFind l k with _ | a
  · simp [h]
  · simp [h, quantize7_micro]

theorem micro_nonneg (k : ℤ) (h : (0:ℚ) ≤ (k : ℚ)/10^6) : 0 ≤ k := by
  have h2 : (0:ℚ) ≤ (k:ℚ) := by
    have h3 := mul_nonneg h (by norm_num : (0:ℚ) ≤ 10^6)
    rwa [div_mul_cancel₀ _ (by norm_num : (10:ℚ)^6 ≠ 0)] at h3
  exact_mod_cast h2

theorem get_balance_getD (l : Ledger) (k : String) :
    (get_balance l (some k)).getD 0 = (((ledgerBal l k).getD 0 : ℤ) : ℚ)/10^6 := by
  rw [get_balance_eq]
  rcases ledgerBal l k with _ | m
  · simp
  · simp

theorem quantize7_sub_micro (m k : ℤ) :
    quantize7 ((m : ℚ) / 10^6 - (k : ℚ) / 10^6) = ((m - k : ℤ) : ℚ) / 10^6 := by
  have h : (m : ℚ) / 10^6 - (k : ℚ) / 10^6 = ((m - k : ℤ) : ℚ) / 10^6 := by
    push_cast
    ring
  rw [h, quantize7_micro]

theorem quantize7_add_micro (m k : ℤ) :
    quantize7 ((m : ℚ) / 10^6 + (k : ℚ) / 10^6) = ((m + k : ℤ) : ℚ) / 10^6 := by
  have h : (m : ℚ) / 10^6 + (k : ℚ) / 10^6 = ((m + k : ℤ) : ℚ) / 10^6 := by
    push_cast
    ring
  rw [h, quantize7_micro]

theorem increment_nonce_some (l : Ledger) (k : String) :
    increment_nonce l (some k) = incrementGo l k := rfl

/-- The write loop of a sender group, on non-negative micro-multiple amounts
whose total does not exceed the sender's stored balance: it completes,
preserves the total of stored balances exactly, and keeps every balance
non-negative. -/
theorem applyGroupWrites_spec (sk : String) :
    ∀ (txs : List Tx) (l : Ledger) (B : ℤ),
      (∀ t ∈ txs, t.sender = some sk) →
      (∀ t ∈ txs, 0 ≤ t.amount ∧ MicroAmount t.amount) →
      ledgerBal l sk = some B →
      (txs.map Tx.amount).sum ≤ (B : ℚ) / 10^6 →
      LedgerNonneg l →
      ∃ l3, applyGroupWrites (some sk) txs l = .ok l3 ∧
        ledgerMicroSum l3 = ledgerMicroSum l ∧
        LedgerNonneg l3 := by
  intro txs
  induction txs with
  | nil =>
    intro l B _ _ _ _ hnn
    exact ⟨l, rfl, rfl, hnn⟩
  | cons t rest ih =>
    intro l B hsend hamt hB hsum hnn
    obtain ⟨hta, k1, hk1⟩ := hamt t (List.mem_cons_self _ _)
    have hts : t.sender = some sk := hsend t (List.mem_cons_self _ _)
    have hk1nn : 0 ≤ k1 := micro_nonneg k1 (hk1 ▸ hta)
    have hrest_nonneg : (0:ℚ) ≤ (rest.map Tx.amount).sum := by
      apply List.sum_nonneg
      intro x hx
      obtain ⟨u, hu, hux⟩ := List.mem_map.mp hx
      exact hux ▸ (hamt u (List.mem_cons_of_mem _ hu)).1
    have hsum2 : t.amount + (rest.map Tx.amount).sum ≤ (B : ℚ) / 10^6 := by
      simpa using hsum
    have hk1B : k1 ≤ B := by
      have h1 : (k1 : ℚ) / 10^6 ≤ (B : ℚ) / 10^6 := by
        rw [← hk1]
        linarith
      have h2 : (k1 : ℚ) ≤ (B : ℚ) := by
        have h4 := mul_le_mul_of_nonneg_right h1 (by norm_num : (0:ℚ) ≤ 10^6)
        rwa [div_mul_cancel₀ _ (by norm_num : (10:ℚ)^6 ≠ 0),
             div_mul_cancel₀ _ (by norm_num : (10:ℚ)^6 ≠ 0)] at h4
      exact_mod_cast h2
    have hgb : get_balance l (some sk) = some ((B : ℚ) / 10^6) := by
      rw [get_balance_eq, hB]
      rfl
    have hstep : applyGroupWrites (some sk) (t :: rest) l =
        applyGroupWrites (some sk) rest
          (ledgerStore (incrementGo (ledgerStore l sk (B - k1)) sk) t.receiver
            ((ledgerBal (incrementGo (ledgerStore l sk (B - k1)) sk) t.receiver).getD 0 + k1)) := by
      simp only [applyGroupWrites, hgb, hts, hk1, quantize7_micro, quantize7_sub_micro,
        quantize7_add_micro, upsert_balance_micro, get_balance_getD, increment_nonce_some]
    set l1 : Ledger := ledgerStore l sk (B - k1) with hl1
    set l2 : Ledger := incrementGo l1 sk with hl2
    set R0 : ℤ := (ledgerBal l2 t.receiver).getD 0 with hR0
    set l3 : Ledger := ledgerStore l2 t.receiver (R0 + k1) with hl3
    have hbal_l2_sk : ledgerBal l2 sk = some (B - k1) := by
      rw [hl2, ledgerBal_incrementGo, hl1, ledgerBal_store_self]
    have hnn1 : LedgerNonneg l1 := nonneg_store l sk (B - k1) hnn (by omega)
    have hnn2 : LedgerNonneg l2 := nonneg_incrementGo l1 sk hnn1
    have hR0nn : 0 ≤ R0 := nonneg_bal l2 t.receiver hnn2
    have hnn3 : LedgerNonneg l3 := nonneg_store l2 t.receiver (R0 + k1) hnn2 (by omega)
    have hsum3 : ledgerMicroSum l3 = ledgerMicroSum l := by
      rw [hl3, microSum_store, ← hR0]
      rw [hl2, microSum_incrementGo]
      rw [hl1, microSum_store, hB]
      simp
      ring
    have hcast : ∀ m : ℤ, ((m : ℤ) : ℚ) / 10^6 = (m : ℚ) / 10^6 := fun m => rfl
    have hbal3 : ∃ B3 : ℤ, ledgerBal l3 sk = some B3 ∧
        (rest.map Tx.amount).sum ≤ (B3 : ℚ) / 10^6 := by
      have hBk : (rest.map Tx.amount).sum ≤ ((B - k1 : ℤ) : ℚ) / 10^6 := by
        have h4 : (rest.map Tx.amount).sum ≤ (B : ℚ)/10^6 - (k1 : ℚ)/10^6 := by
          rw [hk1] at hsum2
          linarith
        have h5 : (B : ℚ)/10^6 - (k1 : ℚ)/10^6 = ((B - k1 : ℤ) : ℚ) / 10^6 := by
          push_cast
          ring
        linarith [h5.le, h5.ge]
      by_cases hr : t.receiver = sk
      · refine ⟨R0 + k1, ?_, ?_⟩
        · rw [hl3, hr, ledgerBal_store_self]
        · have hR0B : R0 = B - k1 := by
            rw [hR0, hr, hbal_l2_sk]
            rfl
          have h6 : ((B - k1 : ℤ) : ℚ) / 10^6 ≤ ((R0 + k1 : ℤ) : ℚ) / 10^6 := by
            rw [hR0B]
            have h7 : ((B - k1 : ℤ) : ℚ) ≤ ((B - k1 + k1 : ℤ) : ℚ) := by
              push_cast
              have h8 : (0:ℚ) ≤ (k1 : ℚ) := by exact_mod_cast hk1nn
              linarith
            exact div_le_div_of_nonneg_right h7 (by norm_num) |>.trans_eq (by norm_num)
          linarith [hBk, h6]
      · refine ⟨B - k1, ?_, hBk⟩
        rw [hl3, ledgerBal_store_other _ _ _ _ hr, hbal_l2_sk]
    obtain ⟨B3, hB3, hsum4⟩ := hbal3
    have hsend3 : ∀ u ∈ rest, u.sender = some sk := fun u hu => hsend u (List.mem_cons_of_mem _ hu)
    have hamt3 : ∀ u ∈ rest, 0 ≤ u.amount ∧ MicroAmount u.amount :=
      fun u hu => hamt u (List.mem_cons_of_mem _ hu)
    obtain ⟨l4, hl4, hsum5, hnn4⟩ := ih l3 B3 hsend3 hamt3 hB3 hsum4 hnn3
    exact ⟨l4, by rw [hstep, hl4], by rw [hsum5, hsum3], hnn4⟩

theorem get_balance_some (l : Ledger) (k : String) (a : Account)
    (h : ledgerFind l k = some a) :
    get_balance l (some k) = some ((a.balanceMicro : ℚ) / 10^6) := by
  simp only [get_balance, h, quantize7_micro]

theorem get_balance_none (l : Ledger) (k : String)
    (h : ledgerFind l k = none) : get_balance l (some k) = none := by
  simp only [get_balance, h]

/-- One sender-group iteration: if it reports success, the total of stored
balances is unchanged and no balance went negative. -/
theorem processGroup_spec (l : Ledger) (sk : Option String) (txs : List Tx) (l2 : Ledger)
    (hgrp : ∀ t ∈ txs, t.sender = sk)
    (hamt : ∀ t ∈ txs, 0 ≤ t.amount ∧ MicroAmount t.amount)
    (hnn : LedgerNonneg l)
    (h : processGroup l sk txs = .ok (true, l2)) :
    ledgerMicroSum l2 = ledgerMicroSum l ∧ LedgerNonneg l2 := by
  unfold processGroup at h
  rcases sk with _ | skey
  · simp [get_nonce] at h
  rcases hn : get_nonce l (some skey) with _ | n
  · rw [hn] at h
    simp at h
  rw [hn] at h
  rcases hf : ledgerFind l skey with _ | acct
  · rw [get_balance_none l skey hf] at h
    simp at h
  rw [get_balance_some l skey acct hf] at h
  dsimp only at h
  have hlb : ledgerBal l skey = some acct.balanceMicro := by
    unfold ledgerBal
    rw [hf]
    rfl
  have hperm : List.Perm (sortByNonce txs) txs := List.perm_insertionSort _ txs
  by_cases h1 : noncesConsecutive (n - ((sortByNonce txs).length : ℤ)) (sortByNonce txs) = true
  · rw [if_neg (not_not_intro h1)] at h
    by_cases h2 : (acct.balanceMicro : ℚ) / 10^6 < (List.map Tx.amount (sortByNonce txs)).sum
    · rw [if_pos h2] at h
      simp at h
    · rw [if_neg h2] at h
      have hsend2 : ∀ t ∈ sortByNonce txs, t.sender = some skey := fun t ht =>
        hgrp t (hperm.mem_iff.mp ht)
      have hamt2 : ∀ t ∈ sortByNonce txs, 0 ≤ t.amount ∧ MicroAmount t.amount := fun t ht =>
        hamt t (hperm.mem_iff.mp ht)
      have hbound : ((sortByNonce txs).map Tx.amount).sum ≤ (acct.balanceMicro : ℚ) / 10^6 :=
        not_lt.mp h2
      obtain ⟨l3, hl3, hs3, hn3⟩ :=
        applyGroupWrites_spec skey (sortByNonce txs) l acct.balanceMicro hsend2 hamt2 hlb hbound hnn
      rw [hl3] at h
      simp at h
      rw [← h]
      exact ⟨hs3, hn3⟩
  · rw [if_pos h1] at h
    simp at h

/-- The per-sender loop over all groups: a fully successful pass preserves the
total of stored balances and non-negativity. -/
theorem processGroups_spec :
    ∀ (gs : List (Option String × List Tx)) (l l2 : Ledger),
      (∀ p ∈ gs, ∀ t ∈ p.2, t.sender = p.1) →
      (∀ p ∈ gs, ∀ t ∈ p.2, 0 ≤ t.amount ∧ MicroAmount t.amount) →
      LedgerNonneg l →
      processGroups gs l = .ok (true, l2) →
      ledgerMicroSum l2 = ledgerMicroSum l ∧ LedgerNonneg l2 := by
  intro gs
  induction gs with
  | nil =>
    intro l l2 _ _ hnn h
    simp [processGroups] at h
    rw [← h]
    exact ⟨rfl, hnn⟩
  | cons g rest ih =>
    intro l l2 hgrp hamt hnn h
    obtain ⟨s, txs⟩ := g
    unfold processGroups at h
    rcases hpg : processGroup l s txs with e | ⟨b, lmid⟩
    · rw [hpg] at h
      simp at h
    rw [hpg] at h
    rcases b with _ | _
    · simp at h
    · simp only at h
      obtain ⟨hs1, hn1⟩ := processGroup_spec l s txs lmid
        (hgrp (s, txs) (List.mem_cons_self _ _))
        (hamt (s, txs) (List.mem_cons_self _ _)) hnn hpg
      obtain ⟨hs2, hn2⟩ := ih lmid l2
        (fun p hp => hgrp p (List.mem_cons_of_mem _ hp))
        (fun p hp => hamt p (List.mem_cons_of_mem _ hp)) hn1 h
      exact ⟨by rw [hs2, hs1], hn2⟩

/-- `addToGroup` preserves a per-transaction property of all group members,
provided the new transaction has it. -/
theorem addToGroup_prop (P : Option String → Tx → Prop) :
    ∀ (gs : List (Option String × List Tx)) (s : Option String) (t : Tx),
      (∀ p ∈ gs, ∀ u ∈ p.2, P p.1 u) → P s t →
      ∀ p ∈ addToGroup gs s t, ∀ u ∈ p.2, P p.1 u := by
  intro gs
  induction gs with
  | nil =>
    intro s t _ hts p hp u hu
    simp [addToGroup] at hp
    subst hp
    simp at hu
    rw [hu]
    exact hts
  | cons g rest ih =>
    intro s t hall hts p hp u hu
    obtain ⟨k, ts⟩ := g
    by_cases hk : k = s
    · rw [addToGroup, if_pos hk] at hp
      rcases List.mem_cons.mp hp with hp1 | hp2
      · rw [hp1] at hu ⊢
        rcases List.mem_append.mp hu with hu1 | hu2
        · exact hall (k, ts) (List.mem_cons_self _ _) u hu1
        · simp at hu2
          rw [hu2, hk]
          exact hts
      · exact hall p (List.mem_cons_of_mem _ hp2) u hu
    · rw [addToGroup, if_neg hk] at hp
      rcases List.mem_cons.mp hp with hp1 | hp2
      · rw [hp1] at hu ⊢
        exact hall (k, ts) (List.mem_cons_self _ _) u hu
      · exact ih s t (fun q hq => hall q (List.mem_cons_of_mem _ hq)) hts p hp2 u hu

/-- Every transaction of every group the partition loop builds satisfies any
property holding on the input list and on the accumulator's groups; and group
keys agree with their members' senders. -/
theorem partitionTxs_prop (P : Option String → Tx → Prop)
    (hP : ∀ s t, t.sender = s → (P s t ↔ P t.sender t)) :
    ∀ (txs : List Tx) (gs : List (Option String × List Tx)) (cbs : List Tx),
      (∀ p ∈ gs, ∀ u ∈ p.2, P p.1 u) →
      (∀ t ∈ txs, P t.sender t) →
      ∀ p ∈ (partitionTxs txs gs cbs).1, ∀ u ∈ p.2, P p.1 u := by
  intro txs
  induction txs with
  | nil =>
    intro gs cbs hgs _ p hp u hu
    exact hgs p hp u hu
  | cons t rest ih =>
    intro gs cbs hgs htxs p hp u hu
    by_cases hcb : t.sender = some "COINBASE"
    · rw [partitionTxs, if_pos hcb] at hp
      exact ih gs (cbs ++ [t]) hgs (fun x hx => htxs x (List.mem_cons_of_mem _ hx)) p hp u hu
    · rw [partitionTxs, if_neg hcb] at hp
      have hnew : ∀ q ∈ addToGroup gs t.sender t, ∀ v ∈ q.2, P q.1 v := by
        apply addToGroup_prop P gs t.sender t hgs
        exact (hP t.sender t rfl).mpr (htxs t (List.mem_cons_self _ _))
      exact ih (addToGroup gs t.sender t) cbs hnew
        (fun x hx => htxs x (List.mem_cons_of_mem _ hx)) p hp u hu

/-- Crediting the coinbase: adds exactly 10 coins (1e7 micro-units) to the
stored total and keeps balances non-negative. -/
theorem applyCoinbase_spec (l : Ledger) (cbs : List Tx) (l2 : Ledger)
    (hnn : LedgerNonneg l)
    (h : applyCoinbase l cbs = .ok (true, l2)) :
    ledgerMicroSum l2 = ledgerMicroSum l + 10^7 ∧ LedgerNonneg l2 := by
  rcases cbs with _ | ⟨cb, rest⟩
  · simp [applyCoinbase] at h
  have h10 : quantize7 (10 : ℚ) = ((10^7 : ℤ) : ℚ) / 10^6 := by
    conv_lhs => rw [show (10 : ℚ) = ((10^7 : ℤ) : ℚ) / 10^6 by norm_num]
    exact quantize7_micro _
  simp only [applyCoinbase, get_balance_getD, h10, quantize7_add_micro,
    upsert_balance_micro] at h
  simp only [Except.ok.injEq, Prod.mk.injEq, true_and] at h
  rw [← h]
  set R0 : ℤ := (ledgerBal l cb.receiver).getD 0 with hR0
  have hR0nn : 0 ≤ R0 := nonneg_bal l cb.receiver hnn
  constructor
  · rw [microSum_store, ← hR0]
    ring
  · exact nonneg_store l cb.receiver (R0 + 10^7) hnn (by positivity)

/-! ## Claim theorems -/

/-- C1: the claim says `tx_hash` is the SHA-256 of the sorted JSON of
`is_coinbase, sender, receiver, amount, nonce` and that two non-coinbase
transactions differing only in nonce hash differently.  The code hashes only
`is_coinbase, sender, receiver, amount`: for every SHA-256 and float-repr
primitive, two transactions that differ only in the `nonce` attribute get the
same `calculate_hash`. -/
theorem C1_calculate_hash_ignores_nonce (env : Env) :
    calculate_hash env (txWithNonce 0) = calculate_hash env (txWithNonce 1) ∧
    (txWithNonce 0).nonce ≠ (txWithNonce 1).nonce ∧
    (txWithNonce 0).is_coinbase = false ∧
    (txWithNonce 0).sender = (txWithNonce 1).sender ∧
    (txWithNonce 0).receiver = (txWithNonce 1).receiver ∧
    (txWithNonce 0).amount = (txWithNonce 1).amount ∧
    (txWithNonce 0).signature = (txWithNonce 1).signature :=
  ⟨rfl, by decide, rfl, rfl, rfl, rfl, rfl⟩

/-- C2 (amended): for a non-coinbase transaction, `is_valid` returns `True`
exactly when sender and signature are non-empty and the hex-decode /
key-parse / verify pipeline succeeds over the STORED `tx_hash`; the stored
hash is never recomputed or compared against the canonical hash of the
fields. -/
theorem C2_is_valid_amended (lib : EcdsaLib) (t : Tx) (h : t.is_coinbase = false) :
    tx_is_valid lib t = .ok true ↔
      pyFalsy t.sender = false ∧ pyFalsy t.signature = false ∧
        isValidTryBody lib t = .ok true := by
  unfold tx_is_valid
  rw [h]
  simp only [Bool.false_eq_true, if_false]
  by_cases hs : pyFalsy t.sender
  · simp [hs]
  · by_cases hg : pyFalsy t.signature
    · simp [hs, hg]
    · simp only [hs, hg, Bool.or_self, if_false]
      rcases hb : isValidTryBody lib t with e | bv
      · rcases e <;> simp
      · rcases bv <;> simp

/-- C5: `add_transaction` on a non-coinbase transaction: if it returns
`True`, the transaction was valid, its nonce equalled the ledger nonce, the
sender's ledger nonce was incremented and the transaction appended to the
pending list; if it returns `False`, ledger and pending list are exactly as
before. -/
theorem C5_add_transaction_admission (txValid : Tx → Bool) (st : ChainState) (t : Tx)
    (h : t.is_coinbase = false) :
    ((add_transaction txValid st t).1 = true →
        txValid t = true ∧
        get_nonce st.ledger t.sender = some t.nonce ∧
        (add_transaction txValid st t).2.ledger = increment_nonce st.ledger t.sender ∧
        (add_transaction txValid st t).2.pending = st.pending ++ [t]) ∧
    ((add_transaction txValid st t).1 = false → (add_transaction txValid st t).2 = st) := by
  by_cases hv : txValid t = true
  · rcases hb : get_balance st.ledger t.sender with _ | sb
    · have heq : add_transaction txValid st t = (false, st) := by
        unfold add_transaction
        rw [hv, hb]
        simp
      rw [heq]
      exact ⟨by simp, fun _ => rfl⟩
    · by_cases hlt : sb < get_all_spendings_from_transactions t.sender st.pending + t.amount
      · have heq : add_transaction txValid st t = (false, st) := by
          unfold add_transaction
          rw [hv, hb]
          simp only [not_true, if_false]
          rw [if_pos hlt]
        rw [heq]
        exact ⟨by simp, fun _ => rfl⟩
      · rcases hn : get_nonce st.ledger t.sender with _ | sn
        · have heq : add_transaction txValid st t = (false, st) := by
            unfold add_transaction
            rw [hv, hb]
            simp only [not_true, if_false]
            rw [if_neg hlt, hn]
          rw [heq]
          exact ⟨by simp, fun _ => rfl⟩
        · by_cases hne : t.nonce = sn
          · have heq : add_transaction txValid st t =
                (true, { ledger := increment_nonce st.ledger t.sender
                         pending := st.pending ++ [t] }) := by
              unfold add_transaction
              rw [hv, hb]
              simp only [not_true, if_false]
              rw [if_neg hlt, hn]
              dsimp only
              rw [if_neg (by simp [hne])]
            rw [heq]
            refine ⟨fun _ => ⟨hv, ?_, rfl, rfl⟩, by simp⟩
            simp [hn, hne]
          · have heq : add_transaction txValid st t = (false, st) := by
              unfold add_transaction
              rw [hv, hb]
              simp only [not_true, if_false]
              rw [if_neg hlt, hn]
              dsimp only
              rw [if_pos hne]
            rw [heq]
            exact ⟨by simp, fun _ => rfl⟩
  · have hv2 : txValid t = false := by
      rcases hval : txValid t with _ | _
      · rfl
      · exact absurd hval hv
    have heq : add_transaction txValid st t = (false, st) := by
      unfold add_transaction
      rw [hv2]
      simp
    rw [heq]
    exact ⟨by simp, fun _ => rfl⟩

/-- C8 (amended): the `except (BadSignatureError, ValueError)` clause turns
those two exception kinds into `False`; the only exception that can escape
`is_valid` to its caller is `MalformedPointError` (raised by
`VerifyingKey.from_string` for hex that is not a valid point encoding), so
the result is always either a boolean or that exception. -/
theorem C8_is_valid_amended (lib : EcdsaLib) (t : Tx) :
    (∃ b, tx_is_valid lib t = .ok b) ∨
      tx_is_valid lib t = .error .malformedPointError := by
  unfold tx_is_valid
  by_cases hc : t.is_coinbase = true
  · rw [if_pos hc]
    exact .inl ⟨_, rfl⟩
  · rw [if_neg hc]
    by_cases hfal : (pyFalsy t.sender || pyFalsy t.signature) = true
    · rw [if_pos hfal]
      exact .inl ⟨false, rfl⟩
    · rw [if_neg hfal]
      rcases hb : isValidTryBody lib t with e | bv
      · rcases e
        · exact .inl ⟨false, rfl⟩
        · exact .inl ⟨false, rfl⟩
        · exact .inr rfl
      · exact .inl ⟨bv, rfl⟩

/-- `INSERT OR IGNORE` grows the registry by at most one row. -/
theorem insertOrIgnore_length (reg : List PeerRow) (addr : String × ℤ) :
    (insertOrIgnore reg addr).length ≤ reg.length + 1 := by
  unfold insertOrIgnore
  split_ifs
  · omega
  · simp

/-- C9 (amended): `add_peer` with bound `m` is a no-op only when the registry
already holds strictly more than `m` rows; consequently bounded adds keep the
registry at no more than `m + 1` rows (not `m`). -/
theorem C9_add_peer_amended (reg : List PeerRow) (addr : String × ℤ) (m : ℤ) :
    ((m < (reg.length : ℤ)) → add_peer reg addr (some m) = reg) ∧
    (((reg.length : ℤ) ≤ m + 1) → ((add_peer reg addr (some m)).length : ℤ) ≤ m + 1) := by
  unfold add_peer
  dsimp only
  constructor
  · intro hm
    rw [if_pos hm]
  · intro hle
    by_cases hm : (reg.length : ℤ) > m
    · rw [if_pos hm]
      exact hle
    · rw [if_neg hm]
      have h2 := insertOrIgnore_length reg addr
      push_cast at hm hle ⊢
      omega

/-- C10: a `Transaction` constructed with `is_coinbase=True` has sender
`"COINBASE"` no matter what sender argument was supplied — in particular the
transactions `Node.process_message` rebuilds from network dictionaries with
the coinbase flag set cannot carry any other sender. -/
theorem C10_coinbase_sender_forced (env : Env) (receiver : String) (amount : ℚ)
    (sender : Option String) (signature tx_hash : Option String) :
    (mkTransaction env receiver amount sender true signature tx_hash).sender =
      some "COINBASE" := rfl

/-- C6 (amended): over the spec's transaction-amount domain — amounts that
are non-negative decimals with at most 6 fractional digits (integer multiples
of the ledger's smallest stored unit) — and a ledger with no negative
balances, a successful `apply_transactions` adds exactly 10.0 coins to the
sum of all balances and leaves no balance negative.  (Outside that domain the
claim fails: sub-micro amounts are lost to `int()` truncation and negative
amounts drive receivers negative — see the counterexample.) -/
theorem C6_conservation_amended (l : Ledger) (txs : List Tx) (l2 : Ledger)
    (hamt : ∀ t ∈ txs, 0 ≤ t.amount ∧ MicroAmount t.amount)
    (hnn : LedgerNonneg l)
    (happ : apply_transactions l txs = .ok (true, l2)) :
    ledgerCoinSum l2 = ledgerCoinSum l + 10 ∧ LedgerNonneg l2 := by
  unfold apply_transactions at happ
  rcases hpart : partitionTxs txs [] [] with ⟨groups, cbs⟩
  rw [hpart] at happ
  dsimp only at happ
  rcases hg : processGroups groups l with e | ⟨b, lmid⟩
  · rw [hg] at happ
    simp at happ
  rw [hg] at happ
  rcases b with _ | _
  · simp at happ
  dsimp only at happ
  have hkeys : ∀ p ∈ groups, ∀ t ∈ p.2, t.sender = p.1 := by
    have h1 := partitionTxs_prop (fun s t => t.sender = s)
      (by intro s t hs; rw [hs]) txs [] []
      (by intro p hp; simp at hp) (fun t _ => rfl)
    rw [hpart] at h1
    exact h1
  have hamts : ∀ p ∈ groups, ∀ t ∈ p.2, 0 ≤ t.amount ∧ MicroAmount t.amount := by
    have h1 := partitionTxs_prop (fun _ t => 0 ≤ t.amount ∧ MicroAmount t.amount)
      (by intro s t _; exact Iff.rfl) txs [] []
      (by intro p hp; simp at hp) hamt
    rw [hpart] at h1
    exact h1
  obtain ⟨hs1, hn1⟩ := processGroups_spec groups l lmid hkeys hamts hnn hg
  obtain ⟨hs2, hn2⟩ := applyCoinbase_spec lmid cbs l2 hn1 happ
  refine ⟨?_, hn2⟩
  unfold ledgerCoinSum
  rw [hs2, hs1]
  push_cast
  ring

/-- The loop of `Blockchain.is_valid`, characterized by the per-index
property the spec states: every element of `rest` links to its predecessor
(`prev` for the head) and passes `Block.is_valid` against it. -/
theorem chainValidFrom_ok_iff (env : Env) (lib : EcdsaLib) (d : ℕ) :
    ∀ (rest : List Block) (prev : Block),
      chainValidFrom env lib d prev rest = .ok true ↔
        ∀ j (hj : j < rest.length),
          ((rest.get ⟨j, hj⟩).previous_hash = (chainPrevAt prev rest j).hash ∧
           block_is_valid env lib d (rest.get ⟨j, hj⟩) (chainPrevAt prev rest j) = .ok true) := by
  intro rest
  induction rest with
  | nil =>
    intro prev
    simp [chainValidFrom]
  | cons b rest2 ih =>
    intro prev
    have hshift : ∀ (j2 : ℕ) (hj2 : j2 < rest2.length),
        (chainPrevAt prev (b :: rest2) (j2 + 1)) = chainPrevAt b rest2 j2 := by
      intro j2 hj2
      rcases j2 with _ | m
      · rfl
      · show (b :: rest2).getD (m + 1) prev = rest2.getD m b
        rw [List.getD_eq_getElem _ _ (by simpa using Nat.lt_succ_of_lt hj2),
            List.getD_eq_getElem _ _ (by omega)]
        simp
    constructor
    · intro h j hj
      unfold chainValidFrom at h
      by_cases hlink : b.previous_hash = prev.hash
      · rw [if_neg (not_not_intro hlink)] at h
        rcases hb : block_is_valid env lib d b prev with e | bv
        · rw [hb] at h
          simp at h
        rw [hb] at h
        rcases bv with _ | _
        · simp at h
        · dsimp only at h
          rcases j with _ | j2
          · exact ⟨hlink, hb⟩
          · have hj2 : j2 < rest2.length := by simpa using hj
            have h2 := (ih b).mp h j2 hj2
            rw [hshift j2 hj2]
            simpa using h2
      · rw [if_pos hlink] at h
        simp at h
    · intro hall
      unfold chainValidFrom
      have h0 := hall 0 (by simp)
      have hlink : b.previous_hash = prev.hash := h0.1
      have hbv : block_is_valid env lib d b prev = .ok true := h0.2
      rw [if_neg (not_not_intro hlink), hbv]
      dsimp only
      refine (ih b).mpr ?_
      intro j2 hj2
      have h2 := hall (j2 + 1) (by simpa using Nat.succ_lt_succ hj2)
      rw [hshift j2 hj2] at h2
      simpa using h2

/-- C7: `Blockchain.is_valid()` returns `True` exactly when every non-genesis
index i has `chain[i].previous_hash == chain[i-1].hash` and
`chain[i].is_valid(difficulty, chain[i-1])`; the genesis block at index 0 is
not itself validated and the definition applies no transaction. -/
theorem C7_blockchain_is_valid_iff (env : Env) (lib : EcdsaLib) (d : ℕ) (chain : List Block) :
    blockchain_is_valid env lib d chain = .ok true ↔
      ∀ i, 1 ≤ i → ∀ h2 : i < chain.length,
        ((chain.get ⟨i, h2⟩).previous_hash =
            (chain.get ⟨i - 1, by omega⟩).hash ∧
         block_is_valid env lib d (chain.get ⟨i, h2⟩)
            (chain.get ⟨i - 1, by omega⟩) = .ok true) := by
  rcases chain with _ | ⟨g, rest⟩
  · simp [blockchain_is_valid]
  unfold blockchain_is_valid
  rw [chainValidFrom_ok_iff]
  constructor
  · intro hall i h1 h2
    rcases i with _ | j
    · omega
    · have hj : j < rest.length := by simpa using h2
      have h3 := hall j hj
      have hget : (g :: rest).get ⟨j + 1, h2⟩ = rest.get ⟨j, hj⟩ := rfl
      have hprev : (g :: rest).get ⟨j + 1 - 1, by omega⟩ = chainPrevAt g rest j := by
        rcases j with _ | m
        · rfl
        · show rest.get ⟨m, by omega⟩ = rest.getD m g
          rw [List.getD_eq_getElem _ _ (by omega)]
          rfl
      rw [hget, hprev]
      exact h3
  · intro hall j hj
    have h2 : j + 1 < (g :: rest).length := by simpa using Nat.succ_lt_succ hj
    have h3 := hall (j + 1) (by omega) h2
    have hget : (g :: rest).get ⟨j + 1, h2⟩ = rest.get ⟨j, hj⟩ := rfl
    have hprev : (g :: rest).get ⟨j + 1 - 1, by omega⟩ = chainPrevAt g rest j := by
      rcases j with _ | m
      · rfl
      · show rest.get ⟨m, by omega⟩ = rest.getD m g
        rw [List.getD_eq_getElem _ _ (by omega)]
        rfl
    rw [hget, hprev] at h3
    exact h3

/-! ## Concrete evaluations

Closed counterexamples and witnesses, evaluated in the kernel.  The rational
arithmetic primitives are marked reducible locally so that `decide` and `rfl`
can run the decimal model. -/

section ConcreteEvaluation

attribute [local semireducible] Rat.add Rat.mul Rat.sub Rat.inv

set_option maxRecDepth 16000

/-- C2 (counterexample): a non-coinbase transaction whose stored `tx_hash`
(`"deadbeef"`) differs from its recomputed canonical hash is reported VALID
whenever its signature verifies over the stored hash — `is_valid` never
recomputes the hash, refuting the claim's third conjunct. -/
theorem C2_spoofed_hash_accepted :
    tx_is_valid libAcceptAll txSpoof = .ok true ∧
    txSpoof.tx_hash ≠ calculate_hash envModel txSpoof := by
  constructor
  · rfl
  · decide

/-- C2 (witness for the amended claim at a concrete input). -/
theorem C2_is_valid_amended_witness :
    txSpoof.is_coinbase = false ∧ tx_is_valid libAcceptAll txSpoof = .ok true :=
  ⟨rfl, (C2_is_valid_amended libAcceptAll txSpoof rfl).mpr ⟨rfl, rfl, rfl⟩⟩

/-- C3: `apply_transactions` on a block whose first sender group (A) passes
and whose second (B) fails the nonce check returns `False` with A already
debited one coin, A's nonce bumped, and the receiver R already credited: the
ledger is partially mutated on failure, refuting atomicity. -/
theorem C3_apply_transactions_partial_mutation :
    apply_transactions ledgerC3 txsC3 = .ok (false, ledgerC3after) ∧
    ledgerC3after ≠ ledgerC3 ∧
    ledgerBal ledgerC3after "A" = some 4000000 ∧
    ledgerBal ledgerC3 "A" = some 5000000 := by
  refine ⟨by rfl, by decide, by rfl, by rfl⟩

/-- C4: a transaction list with TWO coinbase transactions is applied with
result `True` and the first coinbase's receiver is credited the full reward;
an empty list (zero coinbases) raises `IndexError` instead of returning
`False`.  The coinbase-count check only logs a warning. -/
theorem C4_coinbase_count_not_enforced :
    (([cbTo "M1", cbTo2 "M2"].filter fun t => t.sender = some "COINBASE").length = 2) ∧
    apply_transactions ledgerC4 [cbTo "M1", cbTo2 "M2"] =
      .ok (true, [("M1", { nonce := 0, balanceMicro := 10000000 })]) ∧
    apply_transactions ledgerC4 [] = .error "IndexError" := by
  refine ⟨by decide, by rfl, by rfl⟩

/-- C5 (witness at a concrete input: alice's affordable nonce-0 transaction
is admitted). -/
theorem C5_add_transaction_admission_witness :
    txAlice.is_coinbase = false ∧
    (((add_transaction (fun _ => true) stAlice txAlice).1 = true →
        (fun _ : Tx => true) txAlice = true ∧
        get_nonce stAlice.ledger txAlice.sender = some txAlice.nonce ∧
        (add_transaction (fun _ => true) stAlice txAlice).2.ledger =
          increment_nonce stAlice.ledger txAlice.sender ∧
        (add_transaction (fun _ => true) stAlice txAlice).2.pending =
          stAlice.pending ++ [txAlice]) ∧
     ((add_transaction (fun _ => true) stAlice txAlice).1 = false →
        (add_transaction (fun _ => true) stAlice txAlice).2 = stAlice)) :=
  ⟨rfl, C5_add_transaction_admission (fun _ => true) stAlice txAlice rfl⟩

/-- C6 (counterexample): a sub-micro transfer of 1e-7 coins loses one
micro-unit to `int()` truncation (Σ after ≠ Σ before + 10.0), and a negative
amount of -5 coins drives the receiver's balance to -5 (non-negativity
fails) — both runs return `True`. -/
theorem C6_conservation_counterexample :
    (apply_transactions ledgerC6 [cbTo "M", txTiny] =
        .ok (true, [("A", { nonce := 2, balanceMicro := 9999999 }),
                    ("R", { nonce := 0, balanceMicro := 0 }),
                    ("M", { nonce := 0, balanceMicro := 10000000 })]) ∧
      ledgerCoinSum [("A", { nonce := 2, balanceMicro := 9999999 }),
                     ("R", { nonce := 0, balanceMicro := 0 }),
                     ("M", { nonce := 0, balanceMicro := 10000000 })] ≠
        ledgerCoinSum ledgerC6 + 10) ∧
    (apply_transactions ledgerC6 [cbTo "M", txNeg] =
        .ok (true, [("A", { nonce := 2, balanceMicro := 15000000 }),
                    ("R", { nonce := 0, balanceMicro := -5000000 }),
                    ("M", { nonce := 0, balanceMicro := 10000000 })]) ∧
      ¬ LedgerNonneg [("A", { nonce := 2, balanceMicro := 15000000 }),
                      ("R", { nonce := 0, balanceMicro := -5000000 }),
                      ("M", { nonce := 0, balanceMicro := 10000000 })]) := by
  refine ⟨⟨by rfl, by decide⟩, ⟨by rfl, by decide⟩⟩

/-- C6 (witness for the amended claim: a 1-coin transfer plus the coinbase,
all amounts in the spec's domain). -/
theorem C6_conservation_amended_witness :
    (∀ t ∈ [cbTo "M", txA], 0 ≤ t.amount ∧ MicroAmount t.amount) ∧
    LedgerNonneg [("A", { nonce := 1, balanceMicro := 5000000 })] ∧
    apply_transactions [("A", { nonce := 1, balanceMicro := 5000000 })] [cbTo "M", txA] =
      .ok (true, [("A", { nonce := 2, balanceMicro := 4000000 }),
                  ("R", { nonce := 0, balanceMicro := 1000000 }),
                  ("M", { nonce := 0, balanceMicro := 10000000 })]) ∧
    (ledgerCoinSum [("A", { nonce := 2, balanceMicro := 4000000 }),
                    ("R", { nonce := 0, balanceMicro := 1000000 }),
                    ("M", { nonce := 0, balanceMicro := 10000000 })] =
        ledgerCoinSum [("A", { nonce := 1, balanceMicro := 5000000 })] + 10 ∧
      LedgerNonneg [("A", { nonce := 2, balanceMicro := 4000000 }),
                    ("R", { nonce := 0, balanceMicro := 1000000 }),
                    ("M", { nonce := 0, balanceMicro := 10000000 })]) := by
  have hamts : ∀ t ∈ [cbTo "M", txA], 0 ≤ t.amount ∧ MicroAmount t.amount := by
    intro t ht
    simp only [List.mem_cons, List.not_mem_nil, or_false] at ht
    rcases ht with h | h
    · rw [h]
      exact ⟨by norm_num [cbTo], ⟨10^7, by norm_num [cbTo]⟩⟩
    · rw [h]
      exact ⟨by norm_num [txA], ⟨10^6, by norm_num [txA]⟩⟩
  have hnn : LedgerNonneg [("A", { nonce := 1, balanceMicro := 5000000 })] := by decide
  have happ : apply_transactions [("A", { nonce := 1, balanceMicro := 5000000 })]
      [cbTo "M", txA] =
      .ok (true, [("A", { nonce := 2, balanceMicro := 4000000 }),
                  ("R", { nonce := 0, balanceMicro := 1000000 }),
                  ("M", { nonce := 0, balanceMicro := 10000000 })]) := by rfl
  exact ⟨hamts, hnn, happ, C6_conservation_amended _ _ _ hamts hnn happ⟩

/-- C7 (witness: a single-block chain is vacuously valid). -/
theorem C7_blockchain_is_valid_iff_witness :
    blockchain_is_valid envModel libAcceptAll 0 [blockG] = .ok true :=
  (C7_blockchain_is_valid_iff envModel libAcceptAll 0 [blockG]).mpr
    (by
      intro i h1 h2
      simp only [List.length_singleton] at h2
      omega)

/-- C8 (counterexample): a sender that is valid hex but not a valid point
encoding ("aa": one byte) makes `VerifyingKey.from_string` raise
`MalformedPointError`, which the `except (BadSignatureError, ValueError)`
clause does not catch: `is_valid` raises to its caller instead of returning
a boolean. -/
theorem C8_malformed_point_raises :
    tx_is_valid libLengthCheck txMalformed = .error .malformedPointError := by rfl

/-- C9 (counterexample): with exactly `max_peers = 2` rows present, `add_peer`
still inserts (the guard is `get_rows() > max_peers`, not `≥`), growing the
registry to 3 rows. -/
theorem C9_add_peer_at_bound_inserts :
    add_peer regTwo ("c", 3) (some 2) ≠ regTwo ∧
    (add_peer regTwo ("c", 3) (some 2)).length = 3 := by
  refine ⟨by decide, by rfl⟩

/-- C9 (witness for the amended claim: with strictly more rows than the
bound, the call is a no-op). -/
theorem C9_add_peer_amended_witness :
    (1 : ℤ) < (regTwo.length : ℤ) ∧ add_peer regTwo ("c", 3) (some 1) = regTwo :=
  ⟨by decide, (C9_add_peer_amended regTwo ("c", 3) 1).1 (by decide)⟩

end ConcreteEvaluation
